import Mathlib

/-!
Verification of the cat-prep mdbook preprocessor against its specification.

The development shallowly embeds the Rust sources (src/cat_context.rs,
src/render.rs, src/models.rs, src/error.rs) into Lean:

* document text is a list of characters; Rust's str::lines iterator is
  modelled by rustLines (split on the newline character, drop a final empty
  piece produced by a trailing newline, and strip the carriage return of a
  CRLF ending from every newline-terminated piece — the final piece of a
  text not ending in a newline keeps a trailing carriage return, as
  str::lines documents), and joining lines with a newline is joinNl;
* the mdbook Book is a list of chapters (name, content, path); paths are
  plain strings, since the embedded code only ever compares them for
  equality or takes prefixes;
* external collaborators are modelled at their interface, exactly as the
  spec scopes them: TOML deserialization is a parameter producing a typed
  record or an error message, the tinytemplate engine is a record of
  substitution functions (one per template of render.rs), and the
  filesystem walk of the teachers folder is the list of directory entries
  the recursive walk yields;
* the tag HashMap is modelled as an association list touched only through
  the entry/or-insert/push operations the source uses, plus the key-sorted
  conversion performed at render time.
-/

namespace CatPrep

/-! ## Header/body splitter (src/cat_context.rs, extract_header) -/

/-- The delimiter line "+++" separating header from body. -/
def delim : List Char := ['+', '+', '+']

/-- Split a character list at every newline character, keeping empty
pieces, as Rust's str::split with a newline pattern does. -/
def splitNl : List Char → List (List Char)
  | [] => [[]]
  | c :: cs =>
    if c = '\n' then [] :: splitNl cs
    else
      match splitNl cs with
      | [] => [[c]]
      | l :: ls => (c :: l) :: ls

/-- Strip one trailing carriage return (the leftover of a CRLF line
ending) from a piece that was terminated by a newline. -/
def stripCr (l : List Char) : List Char :=
  if l.getLast? = some '\r' then l.dropLast else l

/-- Post-process the newline-split pieces as Rust's str::lines does:
every piece except the last was terminated by a newline and loses one
trailing carriage return (CRLF ending); the final piece is dropped when
empty (the final line ending is optional) and is otherwise kept verbatim,
so a carriage return not immediately followed by a newline is kept. -/
def stripPieces : List (List Char) → List (List Char)
  | [] => []
  | [l] => if l = [] then [] else [l]
  | l :: l2 :: ls => stripCr l :: stripPieces (l2 :: ls)

/-- Model of Rust's str::lines: split on newlines, then post-process the
pieces with stripPieces. -/
def rustLines (s : List Char) : List (List Char) :=
  stripPieces (splitNl s)

/-- Join lines with a newline character, as Vec::join with a newline
does. -/
def joinNl : List (List Char) → List Char
  | [] => []
  | [l] => l
  | l :: l' :: ls => l ++ '\n' :: joinNl (l' :: ls)

/-- Composition directive of a render fragment (src/render.rs,
RenderType). -/
inductive RenderType where
  | Prepend (s : String)
  | Append (s : String)
  | Both (pre post : String)
  | EntirePage (s : String)
  deriving DecidableEq

/-- Errors of cat-prep (src/error.rs).  TOML and templating failures are
carried as plain message strings, matching the spec's treatment of those
collaborators. -/
inductive CatError where
  | NoTeacherFolder
  | TeachersArentFolder
  | InvalidTeacherCard (name : String) (err : String)
  | InvalidOrMissingHeader
  | InvalidHeaderFormat (err : String)
  | CommandFailed (name : String) (status : Int) (error : String)
  | NotARepo (error : String)
  | TinyError (error : String)
  | OrphanRender (site : String) (render : RenderType)
  | OtherError (msg : String)
  deriving DecidableEq

/-- The header/body splitter (src/cat_context.rs, extract_header): the
header is every line before the first delimiter line joined by newlines;
the call fails when that header equals the whole input; otherwise the body
is every line strictly after the delimiter line joined by newlines. -/
def extract_header (src : List Char) : Except CatError (List Char × List Char) :=
  let header := joinNl ((rustLines src).takeWhile (fun l => l ≠ delim))
  if header = src then
    .error .InvalidOrMissingHeader
  else
    let body := joinNl (((rustLines src).dropWhile (fun l => l ≠ delim)).drop 1)
    .ok (header, body)

/-! ### Basic facts about the line model -/

theorem splitNl_ne_nil (s : List Char) : splitNl s ≠ [] := by
  cases s with
  | nil => simp [splitNl]
  | cons c cs =>
    simp only [splitNl]
    split
    · simp
    · cases h : splitNl cs <;> simp

theorem joinNl_cons (a : List Char) (t : List (List Char)) :
    joinNl (a :: t) = a ++ (if t = [] then [] else '\n' :: joinNl t) := by
  cases t <;> simp [joinNl]

theorem joinNl_splitNl (s : List Char) : joinNl (splitNl s) = s := by
  induction s with
  | nil => rfl
  | cons c cs ih =>
    by_cases hc : c = '\n'
    · subst hc
      have h1 : splitNl ('\n' :: cs) = [] :: splitNl cs := by simp [splitNl]
      rw [h1, joinNl_cons, if_neg (splitNl_ne_nil cs), List.nil_append, ih]
    · cases h : splitNl cs with
      | nil => exact absurd h (splitNl_ne_nil cs)
      | cons l ls =>
        have h1 : splitNl (c :: cs) = (c :: l) :: ls := by
          simp only [splitNl, if_neg hc, h]
        rw [h] at ih
        rw [h1]
        cases ls with
        | nil =>
          simp only [joinNl] at ih ⊢
          rw [ih]
        | cons l' ls' =>
          show (c :: l) ++ '\n' :: joinNl (l' :: ls') = c :: cs
          rw [← ih]
          rfl

theorem length_stripCr_le (l : List Char) : (stripCr l).length ≤ l.length := by
  unfold stripCr
  split
  · rw [List.length_dropLast]
    omega
  · exact le_refl _

theorem length_joinNl_stripPieces_le (l : List (List Char)) :
    (joinNl (stripPieces l)).length ≤ (joinNl l).length := by
  induction l with
  | nil => simp [stripPieces]
  | cons a t ih =>
    cases t with
    | nil =>
      by_cases ha : a = []
      · simp [stripPieces, ha, joinNl]
      · simp [stripPieces, ha, joinNl]
    | cons b ts =>
      rw [stripPieces, joinNl_cons, joinNl_cons, if_neg (List.cons_ne_nil b ts)]
      have hstrip := length_stripCr_le a
      by_cases hsp : stripPieces (b :: ts) = []
      · rw [if_pos hsp]
        simp only [List.length_append, List.length_nil, List.length_cons]
        omega
      · rw [if_neg hsp]
        simp only [List.length_append, List.length_cons]
        omega

theorem length_joinNl_rustLines_le (s : List Char) :
    (joinNl (rustLines s)).length ≤ s.length := by
  have h1 := length_joinNl_stripPieces_le (splitNl s)
  rw [joinNl_splitNl] at h1
  exact h1

theorem length_joinNl_takeWhile_lt (ls : List (List Char)) (h : delim ∈ ls) :
    (joinNl (ls.takeWhile (fun l => l ≠ delim))).length < (joinNl ls).length := by
  induction ls with
  | nil => cases h
  | cons a t ih =>
    rw [List.takeWhile_cons]
    by_cases ha : a = delim
    · subst ha
      rw [if_neg (by simp)]
      rw [joinNl_cons]
      have h3 : delim.length = 3 := rfl
      by_cases ht : t = []
      · rw [if_pos ht]
        simp only [joinNl, List.length_nil, List.length_append, h3]
        omega
      · rw [if_neg ht]
        simp only [joinNl, List.length_nil, List.length_append, List.length_cons, h3]
        omega
    · rw [if_pos (by simp [ha])]
      have ht : delim ∈ t := by
        rcases List.mem_cons.mp h with h1 | h1
        · exact absurd h1.symm ha
        · exact h1
      have htne : t ≠ [] := by
        intro hc; rw [hc] at ht; cases ht
      rw [joinNl_cons, joinNl_cons, if_neg htne]
      by_cases htw : t.takeWhile (fun l => decide (l ≠ delim)) = []
      · rw [htw, if_pos rfl]
        simp only [List.length_append, List.length_cons, List.append_nil]
        omega
      · rw [if_neg htw]
        have := ih ht
        simp only [List.length_append, List.length_cons]
        omega

theorem extract_header_def (s : List Char) :
    extract_header s =
      if joinNl ((rustLines s).takeWhile (fun l => l ≠ delim)) = s
      then .error .InvalidOrMissingHeader
      else .ok (joinNl ((rustLines s).takeWhile (fun l => l ≠ delim)),
                joinNl (((rustLines s).dropWhile (fun l => l ≠ delim)).drop 1)) := rfl

theorem takeWhile_of_not_mem_delim (ls : List (List Char)) (h : delim ∉ ls) :
    ls.takeWhile (fun l => l ≠ delim) = ls := by
  induction ls with
  | nil => rfl
  | cons a t ih =>
    have ha : a ≠ delim := fun hc => h (by rw [hc]; exact List.mem_cons_self _ _)
    rw [List.takeWhile_cons, if_pos (by simpa using ha),
      ih (fun hc => h (List.mem_cons_of_mem a hc))]

theorem takeWhile_append_delim (pre post : List (List Char)) (hpre : delim ∉ pre) :
    (pre ++ delim :: post).takeWhile (fun l => l ≠ delim) = pre := by
  induction pre with
  | nil => simp [List.takeWhile_cons]
  | cons a t ih =>
    have ha : a ≠ delim := fun hc => hpre (by rw [hc]; exact List.mem_cons_self _ _)
    rw [List.cons_append, List.takeWhile_cons, if_pos (by simpa using ha),
      ih (fun hc => hpre (List.mem_cons_of_mem a hc))]

theorem dropWhile_append_delim (pre post : List (List Char)) (hpre : delim ∉ pre) :
    (pre ++ delim :: post).dropWhile (fun l => l ≠ delim) = delim :: post := by
  induction pre with
  | nil => simp [List.dropWhile_cons]
  | cons a t ih =>
    have ha : a ≠ delim := fun hc => hpre (by rw [hc]; exact List.mem_cons_self _ _)
    rw [List.cons_append, List.dropWhile_cons, if_pos (by simpa using ha),
      ih (fun hc => hpre (List.mem_cons_of_mem a hc))]

theorem header_ne_src_of_delim_mem (s : List Char) (hmem : delim ∈ rustLines s) :
    joinNl ((rustLines s).takeWhile (fun l => l ≠ delim)) ≠ s := by
  intro hc
  have h1 := length_joinNl_takeWhile_lt (rustLines s) hmem
  have h2 := length_joinNl_rustLines_le s
  rw [hc] at h1
  omega

/-- C1 (amended): extract_header fails with InvalidOrMissingHeader exactly
when the text has no delimiter line AND joining its lines with newlines
reconstructs the text itself; every text containing a delimiter line
succeeds. -/
theorem extract_header_fails_iff (s : List Char) :
    (extract_header s = .error .InvalidOrMissingHeader ↔
      delim ∉ rustLines s ∧ joinNl (rustLines s) = s) ∧
    (delim ∈ rustLines s → ∃ hb, extract_header s = .ok hb) := by
  constructor
  · by_cases hmem : delim ∈ rustLines s
    · have hne := header_ne_src_of_delim_mem s hmem
      rw [extract_header_def, if_neg hne]
      constructor
      · intro hc; cases hc
      · rintro ⟨h1, _⟩; exact absurd hmem h1
    · rw [extract_header_def, takeWhile_of_not_mem_delim _ hmem]
      by_cases heq : joinNl (rustLines s) = s
      · rw [if_pos heq]
        exact ⟨fun _ => ⟨hmem, heq⟩, fun _ => rfl⟩
      · rw [if_neg heq]
        constructor
        · intro hc; cases hc
        · rintro ⟨_, h2⟩; exact absurd h2 heq
  · intro hmem
    have hne := header_ne_src_of_delim_mem s hmem
    rw [extract_header_def, if_neg hne]
    exact ⟨_, rfl⟩

/-- C1 witness: the one-character text "a" has no delimiter line and its
line-join reconstructs it, so the splitter fails on it. -/
theorem extract_header_fails_iff_witness :
    extract_header ['a'] = .error .InvalidOrMissingHeader :=
  (extract_header_fails_iff ['a']).1.mpr ⟨by decide, by decide⟩

/-- C1 counterexample: the text "a\n" contains no delimiter line, yet
extract_header succeeds on it (with header "a" and empty body), because the
newline-join of its lines differs from the text. -/
theorem extract_header_no_delim_success :
    delim ∉ rustLines ['a', '\n'] ∧
      extract_header ['a', '\n'] = .ok (['a'], []) := by
  exact ⟨by decide, rfl⟩

/-- C7: for a text whose lines are pre ++ ["+++"] ++ post with the
delimiter occurring exactly once, extract_header succeeds, the header is
the newline-join of the lines before the delimiter line and the body is
the newline-join of the lines strictly after it. -/
theorem extract_header_unique_delim (s : List Char) (pre post : List (List Char))
    (hsplit : rustLines s = pre ++ delim :: post)
    (hpre : delim ∉ pre) (hpost : delim ∉ post) :
    extract_header s = .ok (joinNl pre, joinNl post) := by
  have hmem : delim ∈ rustLines s := by
    rw [hsplit]
    exact List.mem_append_right _ (List.mem_cons_self _ _)
  have hne := header_ne_src_of_delim_mem s hmem
  rw [extract_header_def, if_neg hne, hsplit, takeWhile_append_delim _ _ hpre,
    dropWhile_append_delim _ _ hpre]
  rfl

/-- C7 witness: the document "t\n+++\nb" splits into header "t" and body
"b". -/
theorem extract_header_unique_delim_witness :
    extract_header ['t', '\n', '+', '+', '+', '\n', 'b'] = .ok (['t'], ['b']) :=
  extract_header_unique_delim _ [['t']] [['b']] rfl (by decide) (by decide)

/-- Faithfulness check: str::lines keeps a carriage return that is not
followed by a newline, so on the text "a\r" the single line "a\r" joins
back to the whole text and the splitter fails, as the source does. -/
theorem extract_header_trailing_cr_fails :
    extract_header ['a', '\r'] = .error .InvalidOrMissingHeader := rfl

/-- Faithfulness check: a final body line "b\r" keeps its carriage return
in the extracted body. -/
theorem extract_header_body_keeps_cr :
    extract_header ['t', '\n', '+', '+', '+', '\n', 'b', '\r']
      = .ok (['t'], ['b', '\r']) := rfl

/-! ## Data model (src/models.rs)

Paths are plain strings; the embedded code only compares them for
equality. -/

structure TeacherCard where
  jmeno : String
  email : String
  username : String
  bio : String
  deriving DecidableEq

structure ArticleCard where
  nazev : String
  tagy : List String
  datum : Option String
  _resolved_path : Option String
  deriving DecidableEq

structure SubjectCard where
  nazev : String
  zodpovedna_osoba : String
  bio : String
  _resolved_path : Option String
  deriving DecidableEq

structure Article where
  card : ArticleCard
  last_modified : String
  modified_by : String
  author : String
  path : String
  modified_resolved : Option TeacherCard
  resolved_author : Option TeacherCard
  subject_card : Option SubjectCard
  deriving DecidableEq

structure Subject where
  card : SubjectCard
  path : String
  path_root : String
  articles : List Article
  resolved_author : Option TeacherCard
  deriving DecidableEq

structure Teacher where
  card : TeacherCard
  subjects : List Subject
  articles : List Article
  files_created : List String
  deriving DecidableEq

/-! ## Tag index (src/cat_context.rs, with_book, tags fold)

The HashMap of tags is modelled as an association list; the source only
touches it through entry/or-insert/push, so only lookup semantics (plus the
key-sorted conversion at render time) are observable. -/

/-- The operation acc.entry(y).or_insert(vec![]).push(x) on the tag map. -/
def insertTag (y : String) (x : ArticleCard) :
    List (String × List ArticleCard) → List (String × List ArticleCard)
  | [] => [(y, [x])]
  | (k, v) :: rest =>
    if k = y then (k, v ++ [x]) :: rest else (k, v) :: insertTag y x rest

/-- The fold of with_book building the tag map from all article cards. -/
def buildTags (cards : List ArticleCard) : List (String × List ArticleCard) :=
  cards.foldl (fun acc x => x.tagy.foldl (fun acc2 y => insertTag y x acc2) acc) []

/-- Key lookup in the modelled tag map. -/
def lookupTag : List (String × List ArticleCard) → String → Option (List ArticleCard)
  | [], _ => none
  | (k, v) :: rest, y => if k = y then some v else lookupTag rest y

/-! ## Back-linking of articles to teachers (src/cat_context.rs,
with_book, lines 378-383) -/

/-- One step of the back-linking loop: the article is pushed onto the
articles list of the first teacher whose created-file set contains its
path (iter_mut().find(..).map(push)). -/
def pushToFirst : List Teacher → Article → List Teacher
  | [], _ => []
  | t :: ts, a =>
    if a.path ∈ t.files_created then
      { t with articles := t.articles ++ [a] } :: ts
    else
      t :: pushToFirst ts a

/-- The whole back-linking pass over all articles. -/
def attachArticles (teachers : List Teacher) (articles : List Article) : List Teacher :=
  articles.foldl pushToFirst teachers

/-! ## Teacher card loader (src/cat_context.rs, read_teacher_cards)

The filesystem is an external collaborator: the recursive walk of the
teachers folder (WalkDir) is modelled as the list of directory entries it
yields, each with its file name, its depth below the folder (1 = directly
inside), whether it is a regular file, and its content; TOML
deserialization is a parameter returning a card or an error message. -/

structure DirEntry where
  fileName : String
  depth : Nat
  isFile : Bool
  content : String
  deriving DecidableEq

/-- State of the path "teachers": absent, a plain file, or a folder whose
recursive walk yields the given entries. -/
inductive TeachersPath where
  | missing
  | file
  | dir (entries : List DirEntry)

/-- Model of Rust str::ends_with. -/
def endsWithSfx (s sfx : String) : Bool :=
  sfx.data.reverse.isPrefixOf s.data.reverse

/-- First parse failure among the walked card files, as the source's
find over the (name, parse result) list. -/
def firstErr (l : List (String × Except String TeacherCard)) : Option (String × String) :=
  (l.filterMap (fun p =>
    match p.2 with
    | .error e => some (p.1, e)
    | .ok _ => none)).head?

/-- The teacher card loader: every regular file of the recursive walk
whose name ends in ".toml" is parsed; the first parse failure is reported,
otherwise all parsed cards are returned in walk order. -/
def read_teacher_cards (parse : String → Except String TeacherCard) :
    TeachersPath → Except CatError (List TeacherCard)
  | .missing => .error .NoTeacherFolder
  | .file => .error .TeachersArentFolder
  | .dir entries =>
    let teachers := (entries.filter
        (fun e => endsWithSfx e.fileName ".toml" && e.isFile)).map
      (fun e => (e.fileName, parse e.content))
    match firstErr teachers with
    | some (name, err) => .error (.InvalidTeacherCard name err)
    | none => .ok (teachers.filterMap (fun p => p.2.toOption))

/-! ### Tag index lemmas -/

/-- Occurrences of one card under one tag: one copy of the card per
occurrence of the tag in its tag list. -/
def occOne (x : ArticleCard) (tag : String) : List ArticleCard :=
  (x.tagy.filter (fun t => t = tag)).map (fun _ => x)

/-- Occurrences of all cards under one tag, in processing order. -/
def occList : List ArticleCard → String → List ArticleCard
  | [], _ => []
  | c :: cs, tag => occOne c tag ++ occList cs tag

theorem lookupTag_insertTag_self (acc : List (String × List ArticleCard))
    (y : String) (x : ArticleCard) :
    lookupTag (insertTag y x acc) y = some ((lookupTag acc y).getD [] ++ [x]) := by
  induction acc with
  | nil => simp [insertTag, lookupTag]
  | cons p rest ih =>
    obtain ⟨k, v⟩ := p
    by_cases hk : k = y
    · simp [insertTag, lookupTag, hk]
    · simp [insertTag, lookupTag, hk, ih]

theorem lookupTag_insertTag_other (acc : List (String × List ArticleCard))
    (y z : String) (x : ArticleCard) (h : z ≠ y) :
    lookupTag (insertTag y x acc) z = lookupTag acc z := by
  induction acc with
  | nil => simp [insertTag, lookupTag, Ne.symm h]
  | cons p rest ih =>
    obtain ⟨k, v⟩ := p
    by_cases hk : k = y
    · subst hk
      simp [insertTag, lookupTag, Ne.symm h]
    · simp [insertTag, lookupTag, hk, ih]

theorem lookupTag_tagfold (ys : List String) (acc : List (String × List ArticleCard))
    (x : ArticleCard) (tag : String) :
    lookupTag (ys.foldl (fun a y => insertTag y x a) acc) tag =
      if tag ∈ ys then
        some ((lookupTag acc tag).getD [] ++ (ys.filter (fun t => t = tag)).map (fun _ => x))
      else lookupTag acc tag := by
  induction ys generalizing acc with
  | nil => simp
  | cons y ys ih =>
    rw [List.foldl_cons, ih]
    by_cases hy : y = tag
    · subst hy
      rw [lookupTag_insertTag_self]
      by_cases hmem : y ∈ ys
      · rw [if_pos hmem, if_pos (List.mem_cons_self _ _)]
        simp [List.filter_cons, List.append_assoc]
      · rw [if_neg hmem, if_pos (List.mem_cons_self _ _)]
        have hfil : ys.filter (fun t => t = y) = [] := by
          rw [List.filter_eq_nil_iff]
          intro a ha
          simp only [decide_eq_true_eq]
          intro hc
          exact hmem (hc ▸ ha)
        simp [List.filter_cons, hfil]
    · rw [lookupTag_insertTag_other _ _ _ _ (Ne.symm hy)]
      have hmemiff : tag ∈ y :: ys ↔ tag ∈ ys := by
        rw [List.mem_cons]
        constructor
        · rintro (h1 | h1)
          · exact absurd h1.symm hy
          · exact h1
        · exact fun h1 => Or.inr h1
      have hfil : (y :: ys).filter (fun t => t = tag) = ys.filter (fun t => t = tag) := by
        simp [List.filter_cons, hy]
      by_cases hmem : tag ∈ ys
      · rw [if_pos hmem, if_pos (hmemiff.mpr hmem), hfil]
      · rw [if_neg hmem, if_neg (fun hc => hmem (hmemiff.mp hc))]

theorem occOne_eq_nil_iff (x : ArticleCard) (tag : String) :
    occOne x tag = [] ↔ tag ∉ x.tagy := by
  unfold occOne
  rw [List.map_eq_nil_iff, List.filter_eq_nil_iff]
  constructor
  · intro h hmem
    exact h tag hmem (by simp)
  · intro h a ha
    simp only [decide_eq_true_eq]
    intro hc
    exact h (hc ▸ ha)

theorem lookupTag_cardfold (cards : List ArticleCard)
    (acc : List (String × List ArticleCard)) (tag : String) :
    lookupTag (cards.foldl (fun a x => x.tagy.foldl (fun a2 y => insertTag y x a2) a) acc) tag =
      if occList cards tag = [] then lookupTag acc tag
      else some ((lookupTag acc tag).getD [] ++ occList cards tag) := by
  induction cards generalizing acc with
  | nil => simp [occList]
  | cons c cs ih =>
    rw [List.foldl_cons, ih, lookupTag_tagfold]
    by_cases hmem : tag ∈ c.tagy
    · have hocc : occOne c tag ≠ [] := fun hc => (occOne_eq_nil_iff c tag).mp hc hmem
      rw [if_pos hmem]
      by_cases hcs : occList cs tag = []
      · rw [if_pos hcs]
        have : occList (c :: cs) tag = occOne c tag := by simp [occList, hcs]
        rw [this, if_neg hocc]
        rfl
      · rw [if_neg hcs]
        have hne : occList (c :: cs) tag ≠ [] := by
          rw [occList]
          intro hcon
          exact hocc (List.append_eq_nil.mp hcon).1
        rw [if_neg hne]
        simp [occList, occOne, List.append_assoc]
    · have hocc : occOne c tag = [] := by
        unfold occOne
        rw [List.map_eq_nil_iff, List.filter_eq_nil_iff]
        intro a ha
        simp only [decide_eq_true_eq]
        intro hc
        exact hmem (hc ▸ ha)
      rw [if_neg hmem]
      have : occList (c :: cs) tag = occList cs tag := by simp [occList, hocc]
      rw [this]

theorem lookupTag_buildTags (cards : List ArticleCard) (tag : String) :
    lookupTag (buildTags cards) tag =
      if occList cards tag = [] then none else some (occList cards tag) := by
  unfold buildTags
  rw [lookupTag_cardfold]
  simp [lookupTag]

theorem occList_eq_nil_iff (cards : List ArticleCard) (tag : String) :
    occList cards tag = [] ↔ ∀ c ∈ cards, tag ∉ c.tagy := by
  induction cards with
  | nil => simp [occList]
  | cons c cs ih =>
    simp [occList, List.append_eq_nil, occOne_eq_nil_iff, ih]

theorem occOne_eq_cons (c : ArticleCard) (tag : String) (h : tag ∈ c.tagy) :
    ∃ t, occOne c tag = c :: t := by
  unfold occOne
  cases hf : c.tagy.filter (fun t => t = tag) with
  | nil =>
    exfalso
    have : tag ∈ c.tagy.filter (fun t => t = tag) :=
      List.mem_filter.mpr ⟨h, by simp⟩
    rw [hf] at this
    cases this
  | cons x xs => exact ⟨xs.map (fun _ => c), rfl⟩

theorem filter_sublist_occList (cards : List ArticleCard) (tag : String) :
    (cards.filter (fun c => tag ∈ c.tagy)).Sublist (occList cards tag) := by
  induction cards with
  | nil => simp [occList]
  | cons c cs ih =>
    rw [occList, List.filter_cons]
    by_cases hmem : tag ∈ c.tagy
    · rw [if_pos (by simpa using hmem)]
      obtain ⟨t, ht⟩ := occOne_eq_cons c tag hmem
      rw [ht, List.cons_append]
      exact List.Sublist.cons₂ c (ih.trans (List.sublist_append_right t _))
    · rw [if_neg (by simpa using hmem), (occOne_eq_nil_iff c tag).mpr hmem,
        List.nil_append]
      exact ih

/-- Sample article card carrying tags git and intro. -/
def cardGit : ArticleCard := ⟨"Git basics", ["git", "intro"], none, some "g/a.md"⟩

/-- Sample article card carrying the single tag intro. -/
def cardIntro : ArticleCard := ⟨"Intro", ["intro"], none, some "g/b.md"⟩

/-- C9: the keys of the tag index are exactly the tags appearing on some
card; for each tag the associated list is exactly the per-occurrence fold
over the cards (one copy of a card per occurrence of the tag on it, in
card processing order), hence it contains every card carrying the tag as
an order-preserving sublist; and the concrete two-card instance from the
spec holds. -/
theorem tag_index_spec :
    (∀ (cards : List ArticleCard) (tag : String),
      (lookupTag (buildTags cards) tag).isSome ↔ ∃ c ∈ cards, tag ∈ c.tagy)
  ∧ (∀ (cards : List ArticleCard) (tag : String) (l : List ArticleCard),
      lookupTag (buildTags cards) tag = some l → l = occList cards tag)
  ∧ (∀ (cards : List ArticleCard) (tag : String) (l : List ArticleCard),
      lookupTag (buildTags cards) tag = some l →
      (cards.filter (fun c => tag ∈ c.tagy)).Sublist l)
  ∧ lookupTag (buildTags [cardGit, cardIntro]) "intro" = some [cardGit, cardIntro]
  ∧ lookupTag (buildTags [cardGit, cardIntro]) "git" = some [cardGit] := by
  refine ⟨?_, ?_, ?_, by decide, by decide⟩
  · intro cards tag
    rw [lookupTag_buildTags]
    by_cases h : occList cards tag = []
    · rw [if_pos h]
      rw [occList_eq_nil_iff] at h
      simp only [Option.isSome_none, Bool.false_eq_true, false_iff]
      rintro ⟨c, hc, hmem⟩
      exact h c hc hmem
    · rw [if_neg h]
      rw [occList_eq_nil_iff] at h
      push_neg at h
      obtain ⟨c, hc, hmem⟩ := h
      simp only [Option.isSome_some, true_iff]
      exact ⟨c, hc, hmem⟩
  · intro cards tag l hl
    rw [lookupTag_buildTags] at hl
    by_cases h : occList cards tag = []
    · rw [if_pos h] at hl
      cases hl
    · rw [if_neg h] at hl
      injection hl with hl
      exact hl.symm
  · intro cards tag l hl
    rw [lookupTag_buildTags] at hl
    by_cases h : occList cards tag = []
    · rw [if_pos h] at hl
      cases hl
    · rw [if_neg h] at hl
      injection hl with hl
      rw [← hl]
      exact filter_sublist_occList cards tag

/-- C9 witness: applying the containment part to the two concrete cards
of the spec shows the intro carriers sit in the intro list in processing
order. -/
theorem tag_index_spec_witness :
    ([cardGit, cardIntro].filter (fun c => ("intro" : String) ∈ c.tagy)).Sublist
      [cardGit, cardIntro] :=
  tag_index_spec.2.2.1 [cardGit, cardIntro] "intro" [cardGit, cardIntro]
    (by decide)

/-! ### Back-linking theorems (C3) -/

/-- Sample teacher card for Alice. -/
def tCardA : TeacherCard := ⟨"Alice", "alice@example.org", "alice", "bio a"⟩

/-- Sample teacher card for Bob. -/
def tCardB : TeacherCard := ⟨"Bob", "bob@example.org", "bob", "bio b"⟩

/-- Sample article card used by the back-linking counterexample. -/
def artCardA : ArticleCard := ⟨"Article A", [], none, some "sub/a.md"⟩

/-- Sample article at path sub/a.md. -/
def artA : Article := ⟨artCardA, "2021-01-01", "alice", "Alice", "sub/a.md", none, none, none⟩

/-- Teacher Alice, recorded as creator of sub/a.md. -/
def teacherA : Teacher := ⟨tCardA, [], [], ["sub/a.md"]⟩

/-- Teacher Bob, also recorded as creator of sub/a.md. -/
def teacherB : Teacher := ⟨tCardB, [], [], ["sub/a.md"]⟩

/-- C3 counterexample: both teachers' created-file sets contain the
article's path, yet after the back-linking pass only the first teacher
holds a copy and the second teacher's articles list is empty. -/
theorem article_backlink_second_teacher_skipped :
    artA.path ∈ teacherB.files_created ∧
    attachArticles [teacherA, teacherB] [artA] =
      [{ teacherA with articles := [artA] }, teacherB] ∧
    (attachArticles [teacherA, teacherB] [artA]).map Teacher.articles
      = [[artA], []] := by
  refine ⟨by decide, by decide, by decide⟩

/-- C3 (amended): an article is attributed only to the first teacher (in
teacher-list order) whose created-file set contains its path; teachers
before it are unchanged because they do not match, teachers after it are
unchanged even when they match; if no teacher matches, the teacher list is
unchanged. -/
theorem article_backlink_first_only (a : Article) :
    (∀ ts : List Teacher, (∀ t ∈ ts, a.path ∉ t.files_created) →
      pushToFirst ts a = ts)
  ∧ (∀ (pre : List Teacher) (t : Teacher) (post : List Teacher),
      (∀ x ∈ pre, a.path ∉ x.files_created) → a.path ∈ t.files_created →
      pushToFirst (pre ++ t :: post) a =
        pre ++ { t with articles := t.articles ++ [a] } :: post) := by
  constructor
  · intro ts h
    induction ts with
    | nil => rfl
    | cons t ts ih =>
      rw [pushToFirst, if_neg (h t (List.mem_cons_self _ _)),
        ih (fun x hx => h x (List.mem_cons_of_mem t hx))]
  · intro pre t post hpre hmem
    induction pre with
    | nil => rw [List.nil_append, pushToFirst, if_pos hmem, List.nil_append]
    | cons x xs ih =>
      rw [List.cons_append, pushToFirst,
        if_neg (hpre x (List.mem_cons_self _ _)),
        ih (fun y hy => hpre y (List.mem_cons_of_mem x hy)), List.cons_append]

/-- C3 witness: with both teachers matching, the pass hands the article to
Alice only. -/
theorem article_backlink_first_only_witness :
    pushToFirst [teacherA, teacherB] artA =
      [{ teacherA with articles := [artA] }, teacherB] :=
  (article_backlink_first_only artA).2 [] teacherA [teacherB]
    (by simp) (by decide)

/-! ### Teacher card loader theorems (C4) -/

/-- Toy TOML parser used by the loader counterexample: only the content
"good" parses. -/
def parseToml0 : String → Except String TeacherCard :=
  fun s => if s = "good" then .ok tCardA else .error "parse error"

/-- C4 counterexample: the walk of the teachers folder is recursive, so a
malformed card file at depth 2 (inside a subdirectory, not directly inside
the folder) is parsed and makes the whole loader fail. -/
theorem teacher_cards_subdir_parse_failure :
    read_teacher_cards parseToml0
        (.dir [⟨"teachers", 0, false, ""⟩, ⟨"nested.toml", 2, true, "bad"⟩])
      = .error (.InvalidTeacherCard "nested.toml" "parse error") := rfl

theorem firstErr_map (entries : List DirEntry)
    (parse : String → Except String TeacherCard) :
    firstErr (entries.map (fun e => (e.fileName, parse e.content))) =
      (entries.filterMap (fun e =>
        match parse e.content with
        | .error m => some (e.fileName, m)
        | .ok _ => none)).head? := by
  unfold firstErr
  rw [List.filterMap_map]
  rfl

/-- C4 (amended): the loader parses every regular file whose name ends in
".toml" anywhere in the recursive walk of the teachers folder, regardless
of depth: if all such files parse, it returns their cards in walk order;
if some such file is malformed, it fails with InvalidTeacherCard naming
the first one, wherever it lies. -/
theorem read_teacher_cards_recursive (parse : String → Except String TeacherCard)
    (entries : List DirEntry) :
    ((∀ e ∈ entries.filter (fun e => endsWithSfx e.fileName ".toml" && e.isFile),
        ∃ c, parse e.content = .ok c) →
      read_teacher_cards parse (.dir entries) =
        .ok ((entries.filter (fun e => endsWithSfx e.fileName ".toml" && e.isFile)).filterMap
          (fun e => (parse e.content).toOption)))
  ∧ (∀ (pre : List DirEntry) (e : DirEntry) (post : List DirEntry),
      entries.filter (fun e => endsWithSfx e.fileName ".toml" && e.isFile)
        = pre ++ e :: post →
      (∀ x ∈ pre, ∃ c, parse x.content = .ok c) →
      ∀ msg, parse e.content = .error msg →
      read_teacher_cards parse (.dir entries)
        = .error (.InvalidTeacherCard e.fileName msg)) := by
  have hunfold : read_teacher_cards parse (.dir entries) =
      match firstErr ((entries.filter
          (fun e => endsWithSfx e.fileName ".toml" && e.isFile)).map
          (fun e => (e.fileName, parse e.content))) with
      | some (name, err) => .error (.InvalidTeacherCard name err)
      | none => .ok (((entries.filter
          (fun e => endsWithSfx e.fileName ".toml" && e.isFile)).map
          (fun e => (e.fileName, parse e.content))).filterMap
          (fun p => p.2.toOption)) := rfl
  constructor
  · intro hok
    have herr : (entries.filter
        (fun e => endsWithSfx e.fileName ".toml" && e.isFile)).filterMap (fun e =>
          match parse e.content with
          | .error m => some (e.fileName, m)
          | .ok _ => none) = [] := by
      rw [List.filterMap_eq_nil_iff]
      intro e he
      obtain ⟨c, hc⟩ := hok e he
      rw [hc]
    rw [hunfold, firstErr_map, herr]
    simp only [List.head?_nil]
    rw [List.filterMap_map]
    rfl
  · intro pre e post hsplit hpre msg hmsg
    have herr : (entries.filter
        (fun e => endsWithSfx e.fileName ".toml" && e.isFile)).filterMap (fun x =>
          match parse x.content with
          | .error m => some (x.fileName, m)
          | .ok _ => none) = (e.fileName, msg) ::
            post.filterMap (fun x =>
              match parse x.content with
              | .error m => some (x.fileName, m)
              | .ok _ => none) := by
      rw [hsplit, List.filterMap_append]
      have hprenil : pre.filterMap (fun x =>
          match parse x.content with
          | .error m => some (x.fileName, m)
          | .ok _ => none) = [] := by
        rw [List.filterMap_eq_nil_iff]
        intro x hx
        obtain ⟨c, hc⟩ := hpre x hx
        rw [hc]
      rw [hprenil, List.nil_append, List.filterMap_cons, hmsg]
    rw [hunfold, firstErr_map, herr]
    rfl

/-- C4 witness: a single well-formed card directly inside the folder loads
as the one-card list. -/
theorem read_teacher_cards_recursive_witness :
    read_teacher_cards parseToml0 (.dir [⟨"a.toml", 1, true, "good"⟩])
      = .ok [tCardA] :=
  (read_teacher_cards_recursive parseToml0 [⟨"a.toml", 1, true, "good"⟩]).1
    (by
      intro e he
      have hf : List.filter (fun e => endsWithSfx e.fileName ".toml" && e.isFile)
          [(⟨"a.toml", 1, true, "good"⟩ : DirEntry)]
          = [⟨"a.toml", 1, true, "good"⟩] := rfl
      rw [hf] at he
      rw [List.mem_singleton.mp he]
      exact ⟨tCardA, rfl⟩)

/-! ## Render application engine (src/render.rs, execute_renders)

The mdbook Book is the list of its chapters; for_each_mut visits them in
order. -/

structure Chapter where
  name : String
  content : String
  path : String
  deriving DecidableEq

/-- A render fragment: target document path plus composition directive
(src/render.rs, RenderSite). -/
structure RenderSite where
  site : String
  render : RenderType
  deriving DecidableEq

/-- How one directive mutates a chapter's content, exactly as the match
in execute_renders formats it.  Note that the Prepend arm reads
format!("{}\n{}", c.content, s): content first, fragment second. -/
def applyRender : RenderType → String → String
  | .Prepend s, content => content ++ "\n" ++ s
  | .Both pre post, content => pre ++ "\n" ++ content ++ "\n" ++ post
  | .Append s, content => content ++ "\n" ++ s
  | .EntirePage s, _ => s

/-- The walk of execute_renders: at each chapter, every still-pending
fragment whose site equals the chapter path is applied in fragment-list
order, then all fragments with that site are removed from the pending
set.  Returns the mutated chapters and the fragments still pending. -/
def execute_walk : List RenderSite → List Chapter → List Chapter × List RenderSite
  | pending, [] => ([], pending)
  | pending, c :: cs =>
    let c2 := { c with content := ((pending.filter (fun r => r.site = c.path)).foldl
        (fun content r => applyRender r.render content) c.content) }
    let rest := execute_walk (pending.filter (fun r => r.site ≠ c.path)) cs
    (c2 :: rest.1, rest.2)

/-- execute_renders: walk the book once, then fail with OrphanRender
naming the first still-pending fragment, or return the mutated book. -/
def execute_renders (pending : List RenderSite) (book : List Chapter) :
    Except CatError (List Chapter) :=
  match execute_walk pending book with
  | (book2, []) => .ok book2
  | (_, r :: _) => .error (.OrphanRender r.site r.render)

/-- Ghost observer of the walk: at how many chapters a given fragment is
applied (it is applied at a chapter when it is still in the pending set
and its site equals the chapter's path). -/
def timesApplied (r : RenderSite) : List RenderSite → List Chapter → Nat
  | _, [] => 0
  | pending, c :: cs =>
    (if r ∈ pending ∧ r.site = c.path then 1 else 0)
    + timesApplied r (pending.filter (fun x => x.site ≠ c.path)) cs

/-! ### Render applier theorems -/

/-- C2 (bug): the Prepend directive is applied with the fragment text
after the existing content, so the result is "BODY\nPRE", which does not
start with the fragment text "PRE" — the Prepend arm behaves exactly like
Append, contradicting its own documentation. -/
theorem prepend_appends_bug :
    execute_renders [⟨"a.md", .Prepend "PRE"⟩] [⟨"Doc", "BODY", "a.md"⟩]
      = .ok [⟨"Doc", "BODY\nPRE", "a.md"⟩]
    ∧ ("BODY\nPRE").data.take ("PRE").data.length ≠ ("PRE").data
    ∧ "BODY\nPRE" ≠ "PRE" ++ "\n" ++ "BODY" := by
  refine ⟨rfl, by decide, by decide⟩

theorem execute_walk_snd (pending : List RenderSite) (book : List Chapter) :
    (execute_walk pending book).2 =
      pending.filter (fun r => decide (r.site ∉ book.map Chapter.path)) := by
  induction book generalizing pending with
  | nil => simp [execute_walk]
  | cons c cs ih =>
    show (execute_walk (pending.filter (fun r => r.site ≠ c.path)) cs).2 =
      pending.filter (fun r => decide (r.site ∉ (c :: cs).map Chapter.path))
    rw [ih, List.filter_filter]
    congr 1
    funext r
    by_cases h1 : r.site = c.path
    · simp [h1]
    · by_cases h2 : r.site ∈ cs.map Chapter.path <;> simp [h1, h2]

theorem timesApplied_not_mem (r : RenderSite) (pending : List RenderSite)
    (book : List Chapter) (h : r ∉ pending) :
    timesApplied r pending book = 0 := by
  induction book generalizing pending with
  | nil => rfl
  | cons c cs ih =>
    rw [timesApplied, if_neg (fun hc => h hc.1),
      ih _ (fun hc => h (List.mem_of_mem_filter hc))]

theorem timesApplied_eq_one (r : RenderSite) (pending : List RenderSite)
    (book : List Chapter) (hmem : r ∈ pending)
    (hsite : r.site ∈ book.map Chapter.path) :
    timesApplied r pending book = 1 := by
  induction book generalizing pending with
  | nil => cases hsite
  | cons c cs ih =>
    rw [timesApplied]
    by_cases h1 : r.site = c.path
    · rw [if_pos ⟨hmem, h1⟩]
      have hout : r ∉ pending.filter (fun x => x.site ≠ c.path) := by
        intro hc
        have := List.of_mem_filter hc
        simp only [decide_not, Bool.not_eq_eq_eq_not, Bool.not_true,
          decide_eq_false_iff_not] at this
        exact this h1
      rw [timesApplied_not_mem _ _ _ hout]
    · rw [if_neg (fun hc => h1 hc.2)]
      have hsite2 : r.site ∈ cs.map Chapter.path := by
        rw [List.map_cons] at hsite
        rcases List.mem_cons.mp hsite with h2 | h2
        · exact absurd h2 h1
        · exact h2
      have hmem2 : r ∈ pending.filter (fun x => x.site ≠ c.path) := by
        rw [List.mem_filter]
        exact ⟨hmem, by simpa using h1⟩
      rw [ih _ hmem2 hsite2]

theorem execute_renders_eq (pending : List RenderSite) (book : List Chapter) :
    execute_renders pending book =
      match pending.filter (fun r => decide (r.site ∉ book.map Chapter.path)) with
      | [] => .ok (execute_walk pending book).1
      | r :: _ => .error (.OrphanRender r.site r.render) := by
  unfold execute_renders
  rcases hwalk : execute_walk pending book with ⟨book2, rem⟩
  have h2 : rem = pending.filter (fun r => decide (r.site ∉ book.map Chapter.path)) := by
    have h3 := execute_walk_snd pending book
    rw [hwalk] at h3
    exact h3
  rw [← h2]
  cases rem with
  | nil => rfl
  | cons r rs => rfl

/-- C6: after the single walk, execute_renders fails exactly when some
fragment's target path matches no chapter path, the reported OrphanRender
names the first such fragment in fragment-list order, and when every
target matches, the call succeeds and every fragment is applied at exactly
one chapter. -/
theorem execute_renders_orphan_spec (pending : List RenderSite) (book : List Chapter) :
    ((∃ r ∈ pending, r.site ∉ book.map Chapter.path) ↔
      ∃ e, execute_renders pending book = .error e)
  ∧ (∀ (pre : List RenderSite) (r : RenderSite) (post : List RenderSite),
      pending = pre ++ r :: post →
      (∀ x ∈ pre, x.site ∈ book.map Chapter.path) →
      r.site ∉ book.map Chapter.path →
      execute_renders pending book = .error (.OrphanRender r.site r.render))
  ∧ ((∀ r ∈ pending, r.site ∈ book.map Chapter.path) →
      (∃ book2, execute_renders pending book = .ok book2)
      ∧ ∀ r ∈ pending, timesApplied r pending book = 1) := by
  refine ⟨?_, ?_, ?_⟩
  · rw [execute_renders_eq]
    cases hfil : pending.filter (fun r => decide (r.site ∉ book.map Chapter.path)) with
    | nil =>
      show (∃ r ∈ pending, r.site ∉ book.map Chapter.path) ↔
        ∃ e, (.ok (execute_walk pending book).1 : Except CatError (List Chapter))
          = .error e
      rw [List.filter_eq_nil_iff] at hfil
      constructor
      · rintro ⟨r, hr, hrs⟩
        exact absurd hrs (by simpa using hfil r hr)
      · rintro ⟨e, he⟩
        cases he
    | cons r0 rs =>
      show (∃ r ∈ pending, r.site ∉ book.map Chapter.path) ↔
        ∃ e, (.error (.OrphanRender r0.site r0.render) : Except CatError (List Chapter))
          = .error e
      constructor
      · intro _
        exact ⟨_, rfl⟩
      · intro _
        have hr0 : r0 ∈ pending.filter
            (fun r => decide (r.site ∉ book.map Chapter.path)) := by
          rw [hfil]
          exact List.mem_cons_self _ _
        have h2 := List.mem_filter.mp hr0
        exact ⟨r0, h2.1, by simpa using h2.2⟩
  · intro pre r post hsplit hpre hr
    have hfil : pending.filter (fun x => decide (x.site ∉ book.map Chapter.path))
        = r :: post.filter (fun x => decide (x.site ∉ book.map Chapter.path)) := by
      rw [hsplit, List.filter_append]
      have hprenil : pre.filter
          (fun x => decide (x.site ∉ book.map Chapter.path)) = [] := by
        rw [List.filter_eq_nil_iff]
        intro x hx
        simpa using hpre x hx
      rw [hprenil, List.nil_append, List.filter_cons, if_pos (by simpa using hr)]
    rw [execute_renders_eq, hfil]
  · intro hall
    have hfil : pending.filter
        (fun x => decide (x.site ∉ book.map Chapter.path)) = [] := by
      rw [List.filter_eq_nil_iff]
      intro x hx
      simpa using hall x hx
    constructor
    · rw [execute_renders_eq, hfil]
      exact ⟨_, rfl⟩
    · intro r hr
      exact timesApplied_eq_one r pending book hr (hall r hr)

/-- C6 witness: a fragment targeting foo.md over an empty book fails with
the orphan-render error naming foo.md. -/
theorem execute_renders_orphan_spec_witness :
    execute_renders [⟨"foo.md", .Append "X"⟩] []
      = .error (.OrphanRender "foo.md" (.Append "X")) :=
  (execute_renders_orphan_spec [⟨"foo.md", .Append "X"⟩] []).2.1
    [] ⟨"foo.md", .Append "X"⟩ [] rfl (by simp) (by simp)

/-! ## Render producers and create_renders (src/render.rs)

Template substitution is an external collaborator ("render(template,
data) → text, or fail"), so the tinytemplate engine is a parameter: one
substitution function per template of render.rs.  Each Render
implementation fixes the target site and the composition directive; only
the substituted text comes from the engine. -/

/-- The full resolved context (src/cat_context.rs, CatContext); the tag
HashMap is the association list built by buildTags. -/
structure CatContext where
  teacher_cards : List TeacherCard
  teachers : List Teacher
  subject_cards : List SubjectCard
  subjects : List Subject
  article_cards : List ArticleCard
  articles : List Article
  tags : List (String × List ArticleCard)

/-- CatContext::new, the empty context. -/
def CatContext.new : CatContext := ⟨[], [], [], [], [], [], []⟩

/-- One tag with its articles (src/render.rs, Tag). -/
structure Tag where
  name : String
  articles : List ArticleCard

/-- Template context for the tags page (src/render.rs, TagContext). -/
structure TagContext where
  tags : List Tag

/-- Wrapper for the teacher-list template (src/render.rs, TeacherList). -/
structure TeacherList where
  list : List TeacherCard

/-- The tinytemplate engine at its interface: one substitution function
per template, each returning the substituted text or an error message. -/
structure TemplateEngine where
  teacher : Teacher → Except String String
  teacherList : TeacherList → Except String String
  subjectPre : Subject → Except String String
  subjectPost : Subject → Except String String
  articlePre : Article → Except String String
  articlePost : Article → Except String String
  tagsPage : TagContext → Except String String

/-- Render for Teacher: an Append fragment targeting teachers.md. -/
def Teacher.render (tt : TemplateEngine) (t : Teacher) : Except CatError RenderSite :=
  match tt.teacher t with
  | .error e => .error (.TinyError e)
  | .ok res => .ok ⟨"teachers.md", .Append res⟩

/-- Render for TeacherList: an Append fragment targeting teachers.md. -/
def TeacherList.render (tt : TemplateEngine) (l : TeacherList) :
    Except CatError RenderSite :=
  match tt.teacherList l with
  | .error e => .error (.TinyError e)
  | .ok res => .ok ⟨"teachers.md", .Append res⟩

/-- Render for Subject: a Both (wrap) fragment targeting the subject's
own path. -/
def Subject.render (tt : TemplateEngine) (s : Subject) : Except CatError RenderSite :=
  match tt.subjectPre s with
  | .error e => .error (.TinyError e)
  | .ok pre =>
    match tt.subjectPost s with
    | .error e => .error (.TinyError e)
    | .ok post => .ok ⟨s.path, .Both pre post⟩

/-- Render for Article: a Both (wrap) fragment targeting the article's
own path. -/
def Article.render (tt : TemplateEngine) (a : Article) : Except CatError RenderSite :=
  match tt.articlePre a with
  | .error e => .error (.TinyError e)
  | .ok pre =>
    match tt.articlePost a with
    | .error e => .error (.TinyError e)
    | .ok post => .ok ⟨a.path, .Both pre post⟩

/-- Stable insertion of a pair into a name-sorted list, modelling Rust's
stable sort_by on the first component. -/
def insertByName (x : String × List ArticleCard) :
    List (String × List ArticleCard) → List (String × List ArticleCard)
  | [] => [x]
  | y :: ys => if x.1 ≤ y.1 then x :: y :: ys else y :: insertByName x ys

/-- Sort tag pairs by tag name (Rust slice::sort_by, modelled by insertion
sort since only the sorted order is observable). -/
def sortByName (l : List (String × List ArticleCard)) :
    List (String × List ArticleCard) :=
  l.foldr insertByName []

/-- From the tag map to the tags-page template context: clone the pairs,
sort by tag name, wrap each in a Tag. -/
def TagContext.fromMap (m : List (String × List ArticleCard)) : TagContext :=
  ⟨(sortByName m).map (fun kv => ⟨kv.1, kv.2⟩)⟩

/-- Render for TagContext: an EntirePage fragment targeting tags.md. -/
def TagContext.render (tt : TemplateEngine) (tc : TagContext) :
    Except CatError RenderSite :=
  match tt.tagsPage tc with
  | .error e => .error (.TinyError e)
  | .ok res => .ok ⟨"tags.md", .EntirePage res⟩

/-- One for_each loop of create_renders: render every entity, pushing
successes onto the pending list and collecting errors; if any error was
collected, the first one is returned. -/
def renderAll {α : Type} (f : α → Except CatError RenderSite) (xs : List α)
    (pending : List RenderSite) : Except CatError (List RenderSite) :=
  match (xs.map f).filterMap (fun r =>
      match r with
      | .error e => some e
      | .ok _ => none) with
  | [] => .ok (pending ++ (xs.map f).filterMap (fun r =>
      match r with
      | .ok x => some x
      | .error _ => none))
  | e :: _ => .error e

/-- The synthetic chapters pushed at the end of create_renders: a
teachers.md chapter unless the teacher card list is empty, and a tags.md
chapter unless the tag map is empty. -/
def pushSynthetic (context : CatContext) (book : List Chapter) : List Chapter :=
  let book1 := if context.teacher_cards.isEmpty then book
    else book ++ [⟨"Vyučující", "# Vyučující\n", "teachers.md"⟩]
  if context.tags.isEmpty then book1
  else book1 ++ [⟨"Tagy", "", "tags.md"⟩]

/-- create_renders: the teacher-list fragment, one fragment per teacher,
per subject and per article, and the tags-page fragment, in that order;
then the synthetic chapters are appended to the book. -/
def create_renders (tt : TemplateEngine) (context : CatContext)
    (book : List Chapter) : Except CatError (List RenderSite × List Chapter) :=
  match TeacherList.render tt ⟨context.teacher_cards⟩ with
  | .error e => .error e
  | .ok r0 =>
    match renderAll (Teacher.render tt) context.teachers [r0] with
    | .error e => .error e
    | .ok p1 =>
      match renderAll (Subject.render tt) context.subjects p1 with
      | .error e => .error e
      | .ok p2 =>
        match renderAll (Article.render tt) context.articles p2 with
        | .error e => .error e
        | .ok p3 =>
          match TagContext.render tt (TagContext.fromMap context.tags) with
          | .error e => .error e
          | .ok rt => .ok (p3 ++ [rt], pushSynthetic context book)

/-- The run of the preprocessor after context resolution (src/lib.rs):
create the renders, then execute them on the book. -/
def runPipeline (tt : TemplateEngine) (context : CatContext)
    (book : List Chapter) : Except CatError (List Chapter) :=
  match create_renders tt context book with
  | .error e => .error e
  | .ok pb => execute_renders pb.1 pb.2

/-! ### create_renders theorems (C5, C10) -/

theorem teacherList_render_ok (tt : TemplateEngine) (l : TeacherList)
    (r : RenderSite) (h : TeacherList.render tt l = .ok r) :
    r.site = "teachers.md" ∧ ∃ s, r.render = .Append s := by
  unfold TeacherList.render at h
  cases h2 : tt.teacherList l with
  | error e => rw [h2] at h; cases h
  | ok res =>
    rw [h2] at h
    injection h with h
    rw [← h]
    exact ⟨rfl, res, rfl⟩

theorem teacher_render_ok (tt : TemplateEngine) (t : Teacher)
    (r : RenderSite) (h : Teacher.render tt t = .ok r) :
    ∃ s, r.render = .Append s := by
  unfold Teacher.render at h
  cases h2 : tt.teacher t with
  | error e => rw [h2] at h; cases h
  | ok res =>
    rw [h2] at h
    injection h with h
    rw [← h]
    exact ⟨res, rfl⟩

theorem subject_render_ok (tt : TemplateEngine) (s : Subject)
    (r : RenderSite) (h : Subject.render tt s = .ok r) :
    ∃ p q, r.render = .Both p q := by
  unfold Subject.render at h
  cases h2 : tt.subjectPre s with
  | error e => rw [h2] at h; cases h
  | ok pre =>
    rw [h2] at h
    cases h3 : tt.subjectPost s with
    | error e => rw [h3] at h; cases h
    | ok post =>
      rw [h3] at h
      injection h with h
      rw [← h]
      exact ⟨pre, post, rfl⟩

theorem article_render_ok (tt : TemplateEngine) (a : Article)
    (r : RenderSite) (h : Article.render tt a = .ok r) :
    ∃ p q, r.render = .Both p q := by
  unfold Article.render at h
  cases h2 : tt.articlePre a with
  | error e => rw [h2] at h; cases h
  | ok pre =>
    rw [h2] at h
    cases h3 : tt.articlePost a with
    | error e => rw [h3] at h; cases h
    | ok post =>
      rw [h3] at h
      injection h with h
      rw [← h]
      exact ⟨pre, post, rfl⟩

theorem tagContext_render_ok (tt : TemplateEngine) (tc : TagContext)
    (r : RenderSite) (h : TagContext.render tt tc = .ok r) :
    r.site = "tags.md" ∧ ∃ s, r.render = .EntirePage s := by
  unfold TagContext.render at h
  cases h2 : tt.tagsPage tc with
  | error e => rw [h2] at h; cases h
  | ok res =>
    rw [h2] at h
    injection h with h
    rw [← h]
    exact ⟨rfl, res, rfl⟩

theorem renderAll_ok {α : Type} (f : α → Except CatError RenderSite)
    (xs : List α) (pending p : List RenderSite)
    (h : renderAll f xs pending = .ok p) :
    ∀ r ∈ p, r ∈ pending ∨ ∃ x ∈ xs, f x = .ok r := by
  unfold renderAll at h
  cases herrs : (xs.map f).filterMap (fun r =>
      match r with
      | .error e => some e
      | .ok _ => none) with
  | cons e es => rw [herrs] at h; cases h
  | nil =>
    rw [herrs] at h
    injection h with h
    intro r hr
    rw [← h] at hr
    rcases List.mem_append.mp hr with h1 | h1
    · exact Or.inl h1
    · right
      obtain ⟨y, hy, hyr⟩ := List.mem_filterMap.mp h1
      obtain ⟨x, hx, hxy⟩ := List.mem_map.mp hy
      refine ⟨x, hx, ?_⟩
      rw [← hxy] at hyr
      cases h4 : f x with
      | error e => rw [h4] at hyr; cases hyr
      | ok z =>
        rw [h4] at hyr
        injection hyr with hyr
        rw [hyr]

theorem renderAll_ok_prefix {α : Type} (f : α → Except CatError RenderSite)
    (xs : List α) (pending p : List RenderSite)
    (h : renderAll f xs pending = .ok p) :
    ∀ r ∈ pending, r ∈ p := by
  unfold renderAll at h
  cases herrs : (xs.map f).filterMap (fun r =>
      match r with
      | .error e => some e
      | .ok _ => none) with
  | cons e es => rw [herrs] at h; cases h
  | nil =>
    rw [herrs] at h
    injection h with h
    intro r hr
    rw [← h]
    exact List.mem_append_left _ hr

theorem create_renders_ok (tt : TemplateEngine) (context : CatContext)
    (book : List Chapter) (out : List RenderSite × List Chapter)
    (h : create_renders tt context book = .ok out) :
    ∃ r0 p1 p2 p3 rt,
      TeacherList.render tt ⟨context.teacher_cards⟩ = .ok r0 ∧
      renderAll (Teacher.render tt) context.teachers [r0] = .ok p1 ∧
      renderAll (Subject.render tt) context.subjects p1 = .ok p2 ∧
      renderAll (Article.render tt) context.articles p2 = .ok p3 ∧
      TagContext.render tt (TagContext.fromMap context.tags) = .ok rt ∧
      out = (p3 ++ [rt], pushSynthetic context book) := by
  unfold create_renders at h
  split at h
  · cases h
  · rename_i r0 h0
    split at h
    · cases h
    · rename_i p1 h1
      split at h
      · cases h
      · rename_i p2 h2
        split at h
        · cases h
        · rename_i p3 h3
          split at h
          · cases h
          · rename_i rt h4
            injection h with h
            exact ⟨r0, p1, p2, p3, rt, h0, h1, h2, h3, h4, h.symm⟩

/-- C10: every fragment produced by create_renders carries an Append,
Both or EntirePage directive; no built-in producer emits a Prepend
fragment. -/
theorem create_renders_no_prepend (tt : TemplateEngine) (context : CatContext)
    (book : List Chapter) (out : List RenderSite × List Chapter)
    (h : create_renders tt context book = .ok out) :
    ∀ r ∈ out.1, ∀ s, r.render ≠ .Prepend s := by
  obtain ⟨r0, p1, p2, p3, rt, h0, h1, h2, h3, h4, hout⟩ :=
    create_renders_ok tt context book out h
  intro r hr s
  rw [hout] at hr
  have hmem1 : ∀ x ∈ p1, ∀ s2, x.render ≠ .Prepend s2 := by
    intro x hx s2
    rcases renderAll_ok _ _ _ _ h1 x hx with hm | ⟨t, _, ht⟩
    · rcases List.mem_singleton.mp hm with rfl
      obtain ⟨_, s3, hs3⟩ := teacherList_render_ok tt ⟨context.teacher_cards⟩ x h0
      rw [hs3]
      intro hc
      cases hc
    · obtain ⟨s3, hs3⟩ := teacher_render_ok tt t x ht
      rw [hs3]
      intro hc
      cases hc
  have hmem2 : ∀ x ∈ p2, ∀ s2, x.render ≠ .Prepend s2 := by
    intro x hx s2
    rcases renderAll_ok _ _ _ _ h2 x hx with hm | ⟨t, _, ht⟩
    · exact hmem1 x hm s2
    · obtain ⟨p, q, hpq⟩ := subject_render_ok tt t x ht
      rw [hpq]
      intro hc
      cases hc
  have hmem3 : ∀ x ∈ p3, ∀ s2, x.render ≠ .Prepend s2 := by
    intro x hx s2
    rcases renderAll_ok _ _ _ _ h3 x hx with hm | ⟨t, _, ht⟩
    · exact hmem2 x hm s2
    · obtain ⟨p, q, hpq⟩ := article_render_ok tt t x ht
      rw [hpq]
      intro hc
      cases hc
  have hr2 : r ∈ p3 ++ [rt] := hr
  rcases List.mem_append.mp hr2 with h5 | h5
  · exact hmem3 r h5 s
  · rcases List.mem_singleton.mp h5 with rfl
    obtain ⟨_, s3, hs3⟩ := tagContext_render_ok tt (TagContext.fromMap context.tags) r h4
    rw [hs3]
    intro hc
    cases hc

/-- A trivial template engine whose every substitution yields the empty
string; used to instantiate the pipeline theorems at concrete inputs. -/
def ttOk : TemplateEngine :=
  ⟨fun _ => .ok "", fun _ => .ok "", fun _ => .ok "", fun _ => .ok "",
   fun _ => .ok "", fun _ => .ok "", fun _ => .ok ""⟩

/-- C10 witness: on the empty context the produced teacher-list fragment
is an Append fragment, not a Prepend one. -/
theorem create_renders_no_prepend_witness :
    (⟨"teachers.md", .Append ""⟩ : RenderSite).render ≠ .Prepend "x" :=
  create_renders_no_prepend ttOk CatContext.new []
    ([⟨"teachers.md", .Append ""⟩, ⟨"tags.md", .EntirePage ""⟩], []) rfl
    ⟨"teachers.md", .Append ""⟩ (by decide) "x"

/-- C5 (bug): with an empty teacher list, the synthetic teachers.md
chapter is indeed omitted, but the teacher-list fragment targeting
teachers.md is still produced, so the run can never complete
successfully: it fails (with OrphanRender, or earlier with a template
error) instead of producing the rest of the output. -/
theorem empty_teachers_run_fails (tt : TemplateEngine) (context : CatContext)
    (book : List Chapter)
    (hteach : context.teacher_cards = [])
    (hbook : "teachers.md" ∉ book.map Chapter.path) :
    ∀ out, runPipeline tt context book ≠ .ok out := by
  intro out
  unfold runPipeline
  cases hcr : create_renders tt context book with
  | error e =>
    intro hc
    cases hc
  | ok pb =>
    show execute_renders pb.1 pb.2 ≠ .ok out
    obtain ⟨r0, p1, p2, p3, rt, h0, h1, h2, h3, h4, hout⟩ :=
      create_renders_ok tt context book pb hcr
    have hr0site : r0.site = "teachers.md" :=
      (teacherList_render_ok tt ⟨context.teacher_cards⟩ r0 h0).1
    have hr0p1 : r0 ∈ p1 :=
      renderAll_ok_prefix _ _ _ _ h1 r0 (List.mem_singleton.mpr rfl)
    have hr0p2 : r0 ∈ p2 := renderAll_ok_prefix _ _ _ _ h2 r0 hr0p1
    have hr0p3 : r0 ∈ p3 := renderAll_ok_prefix _ _ _ _ h3 r0 hr0p2
    have hr0p4 : r0 ∈ pb.1 := by
      rw [hout]
      exact List.mem_append_left _ hr0p3
    have hsyn : "teachers.md" ∉ (pushSynthetic context book).map Chapter.path := by
      unfold pushSynthetic
      rw [hteach]
      simp only [List.isEmpty_nil, if_true]
      by_cases htags : context.tags.isEmpty
      · rw [if_pos htags]
        exact hbook
      · rw [if_neg htags]
        rw [List.map_append, List.mem_append]
        rintro (hc | hc)
        · exact hbook hc
        · simp at hc
    have hsite : r0.site ∉ pb.2.map Chapter.path := by
      rw [hout, hr0site]
      exact hsyn
    rw [execute_renders_eq]
    have hne : pb.1.filter (fun r => decide (r.site ∉ pb.2.map Chapter.path)) ≠ [] :=
      List.ne_nil_of_mem
        (List.mem_filter.mpr ⟨hr0p4, by simpa using hsite⟩)
    cases hfil : pb.1.filter (fun r => decide (r.site ∉ pb.2.map Chapter.path)) with
    | nil => exact absurd hfil hne
    | cons r rs =>
      intro hc
      cases hc

/-- C5 witness: on the empty context over an empty book the pipeline
fails instead of succeeding. -/
theorem empty_teachers_run_fails_witness :
    runPipeline ttOk CatContext.new [] ≠ .ok [] :=
  empty_teachers_run_fails ttOk CatContext.new [] rfl (by simp) []

end CatPrep
